import Mathlib

/-!
Verification of the Ethereum JSON-RPC contract-call module (`src/eth_rpc.rs`).

The development shallowly embeds the module: each Rust item becomes a Lean
definition of the same name (snake_case kept where Lean allows).  Rust panics
become `Except`/`Option` failure values of the error taxonomy `CallError`;
the process-wide `REQUEST_ID` cell becomes explicit state passing of a `Nat`
kept below `2 ^ 64`.  Components the module delegates to external crates
(`ethers_core` ABI coding, `serde_json` serialization, `url` host parsing,
the crate-local hex utilities) are modelled from the specification, as marked
on each definition.
-/

namespace EthRpc

/-! ## ABI data model -/

/-- ABI parameter types (`ethers_core::abi::ParamType`): integers of every
declared bit width and signedness, addresses, booleans, fixed and variable
byte arrays, strings, fixed- and variable-length arrays, and tuples. -/
inductive ParamType where
  | uint (w : Nat)
  | int (w : Nat)
  | address
  | bool
  | fixedBytes (n : Nat)
  | bytes
  | string
  | fixedArray (t : ParamType) (n : Nat)
  | array (t : ParamType)
  | tuple (ts : List ParamType)

/-- Comma-separated concatenation, used for canonical signatures. -/
def commaSep : List String → String
  | [] => ""
  | [x] => x
  | x :: y :: rest => x ++ "," ++ commaSep (y :: rest)

mutual

/-- Canonical type name, as used in canonical function signatures
(`uint256`, `bytes3`, `uint8[2]`, `bool[]`, `(uint256,string)`, ...). -/
def ParamType.canon : ParamType → String
  | .uint w => "uint" ++ Nat.repr w
  | .int w => "int" ++ Nat.repr w
  | .address => "address"
  | .bool => "bool"
  | .fixedBytes n => "bytes" ++ Nat.repr n
  | .bytes => "bytes"
  | .string => "string"
  | .fixedArray t n => t.canon ++ "[" ++ Nat.repr n ++ "]"
  | .array t => t.canon ++ "[]"
  | .tuple ts => "(" ++ commaSep (canonList ts) ++ ")"

/-- Canonical names of a type list. -/
def canonList : List ParamType → List String
  | [] => []
  | t :: ts => t.canon :: canonList ts

end

mutual

/-- Whether a type is dynamically sized (`ParamType::is_dynamic`): bytes,
strings and variable-length arrays are; a fixed array is when its element
type is; a tuple is when any component is. -/
def ParamType.isDynamic : ParamType → Bool
  | .bytes => true
  | .string => true
  | .array _ => true
  | .fixedArray t _ => t.isDynamic
  | .tuple ts => anyDynP ts
  | _ => false

/-- Whether any type of a list is dynamically sized. -/
def anyDynP : List ParamType → Bool
  | [] => false
  | t :: ts => t.isDynamic || anyDynP ts

end

mutual

/-- Head size (in bytes) a value of this type occupies in the head region of
its enclosing tuple: one 32-byte word for every elementary or dynamic type,
the summed component sizes for static fixed arrays and tuples. -/
def paramHeadSize : ParamType → Nat
  | .uint _ => 32
  | .int _ => 32
  | .address => 32
  | .bool => 32
  | .fixedBytes _ => 32
  | .bytes => 32
  | .string => 32
  | .array _ => 32
  | .fixedArray t n => if t.isDynamic then 32 else n * paramHeadSize t
  | .tuple ts => if anyDynP ts then 32 else seqHeadSize ts

/-- Summed head sizes of a type list. -/
def seqHeadSize : List ParamType → Nat
  | [] => 0
  | t :: ts => paramHeadSize t + seqHeadSize ts

end

/-- ABI values (`ethers_core::abi::Token`).  `Uint`/`Int` carry their raw
256-bit word (`ethers` `U256`/`I256`; a signed value is its two's-complement
word), independent of the declared bit width, exactly as in `ethers` where
the width lives only in the `ParamType`.  A string is carried as its UTF-8
byte sequence. -/
inductive Token where
  | uint (n : Nat)
  | int (n : Nat)
  | address (a : Nat)
  | bool (b : Bool)
  | fixedBytes (v : List Nat)
  | bytes (v : List Nat)
  | string (v : List Nat)
  | fixedArray (elems : List Token)
  | array (elems : List Token)
  | tuple (elems : List Token)

mutual

/-- Whether a token is dynamically sized (`Token::is_dynamic`). -/
def Token.isDynamic : Token → Bool
  | .bytes _ => true
  | .string _ => true
  | .array _ => true
  | .fixedArray elems => anyDynT elems
  | .tuple elems => anyDynT elems
  | _ => false

/-- Whether any token of a list is dynamically sized. -/
def anyDynT : List Token → Bool
  | [] => false
  | v :: vs => v.isDynamic || anyDynT vs

end

mutual

/-- Well-formedness: numeric payloads fit their machine words (`U256`,
`H160`), fixed byte arrays fit one word, and array lengths fit the length
word (in `ethers` they are `usize` values, far below `2 ^ 256`). -/
def Token.wf : Token → Bool
  | .uint n => decide (n < 2 ^ 256)
  | .int n => decide (n < 2 ^ 256)
  | .address a => decide (a < 2 ^ 160)
  | .bool _ => true
  | .fixedBytes v => decide (v.length ≤ 32)
  | .bytes _ => true
  | .string _ => true
  | .fixedArray elems => wfAll elems
  | .array elems => decide (elems.length < 2 ^ 256) && wfAll elems
  | .tuple elems => wfAll elems

/-- Well-formedness of every token of a list. -/
def wfAll : List Token → Bool
  | [] => true
  | v :: vs => v.wf && wfAll vs

end

mutual

/-- Modelled from the spec: `ethabi` `Token::type_check` — a token matches a
type of its own kind; integer widths are not range-checked (the token holds
the full word); a fixed byte array must have the declared length; array and
tuple components are checked recursively.  A fixed array of length 0 over a
dynamic element type is rejected: for that degenerate type the ABI encoder
(driven by the token, whose empty element list counts as static) and the
decoder (driven by the type, which counts as dynamic) disagree, so no
interface uses it. -/
def typeCheck : Token → ParamType → Bool
  | .uint _, .uint _ => true
  | .int _, .int _ => true
  | .address _, .address => true
  | .bool _, .bool => true
  | .fixedBytes v, .fixedBytes n => v.length == n
  | .bytes _, .bytes => true
  | .string _, .string => true
  | .fixedArray elems, .fixedArray t n =>
    elems.length == n && (decide (0 < n) || !t.isDynamic) && typeCheckElems elems t
  | .array elems, .array t => typeCheckElems elems t
  | .tuple elems, .tuple ts => typeCheckList elems ts
  | _, _ => false

/-- Every token of a list checks against one element type. -/
def typeCheckElems : List Token → ParamType → Bool
  | [], _ => true
  | v :: vs, t => typeCheck v t && typeCheckElems vs t

/-- A token list checks pointwise against a type list of the same length. -/
def typeCheckList : List Token → List ParamType → Bool
  | [], [] => true
  | v :: vs, t :: ts => typeCheck v t && typeCheckList vs ts
  | _, _ => false

end

/-- One callable ABI entry point (`ethers_core::abi::Function`): name,
ordered input types, ordered output types. -/
structure Function where
  name : String
  inputs : List ParamType
  outputs : List ParamType

/-- Canonical signature string, `name(type1,type2,...)`
(`ethers_core::abi::FunctionExt::abi_signature`). -/
def abiSignature (f : Function) : String :=
  f.name ++ "(" ++ commaSep (f.inputs.map ParamType.canon) ++ ")"

/-- A contract interface (`ethers_core::abi::Contract`): the flat list of its
function descriptors, in definition order.  `functions_by_name` is embedded
as a filter over this list and `functions()` as iteration over it. -/
structure Contract where
  functions : List Function

/-! ## Error taxonomy

Each constructor corresponds to one `panic!`/`expect` site of
`execute_contract_call` and its helpers (§7 of the spec). -/

inductive CallError where
  | UnsupportedNetwork
  | FunctionNotFound
  | AmbiguousFunction (candidates : List String)
  | EncodingError
  | InvalidUrl
  | HttpTransportError
  | MalformedResponse
  | MissingOutcome
  | RpcError (code : Int) (message : String)
  | DecodingError
deriving DecidableEq, Inhabited

/-! ## ABI function resolution (`execute_contract_call`, lines 85-100)

First `functions_by_name`: exactly one match returns it, two or more is the
`AmbiguousFunction` panic listing the overload signatures.  If the name lookup
fails, fall back to scanning `functions()` for an exact canonical-signature
match; no match at all is the `FunctionNotFound` panic. -/

def resolveFunction (abi : Contract) (methodName : String) : Except CallError Function :=
  match abi.functions.filter (fun f => f.name == methodName) with
  | [f] => .ok f
  | [] =>
    match abi.functions.find? (fun f => methodName == abiSignature f) with
    | some f => .ok f
    | none => .error .FunctionNotFound
  | overloads => .error (.AmbiguousFunction (overloads.map abiSignature))

/-! ## ABI encoding and decoding

Modelled from the spec: the Call Encoder/Decoder (§4.4) lives in the external
`ethers_core::abi` crate (`Function::encode_input` / `Function::decode_output`,
delegating to `ethabi`), not in this repository's sources.  The embedding
follows the standard Ethereum ABI head/tail layout over the full token
universe above: the head of a statically sized value is its inline encoding
(one 32-byte big-endian word for the elementary types, the concatenated
component heads for static fixed arrays and tuples); the head of a
dynamically sized value is one word holding the byte offset of its tail,
relative to the start of the enclosing frame; bytes and string tails are a
length word followed by the data zero-padded to a word multiple; array tails
are a length word followed by the elements encoded as a fresh frame; dynamic
fixed arrays and tuples are a fresh frame of their elements.  The decoder
walks a frame by byte position and re-slices it at each dynamic offset,
exactly as `ethabi::decode` does.  The 4-byte selector prefix of
`encode_input` (a keccak hash) is external and not modelled. -/

/-- Big-endian base-256 digits, fixed width `k`. -/
def beBytes : Nat → Nat → List Nat
  | 0, _ => []
  | k + 1, n => beBytes k (n / 256) ++ [n % 256]

/-- A 32-byte ABI word holding `n % 2 ^ 256`. -/
def byteWord (n : Nat) : List Nat := beBytes 32 n

/-- Big-endian value of a byte list. -/
def wordToNat (l : List Nat) : Nat := l.foldl (fun a b => a * 256 + b) 0

/-- Zero padding needed to round `n` up to a multiple of 32. -/
def padLen (n : Nat) : Nat := (32 - n % 32) % 32

mutual

/-- Head size (in bytes) a token occupies in the head region of its
enclosing frame (`ethabi` head length): one word unless it is a static
fixed array or tuple, which sit inline. -/
def headSize : Token → Nat
  | .uint _ => 32
  | .int _ => 32
  | .address _ => 32
  | .bool _ => 32
  | .fixedBytes _ => 32
  | .bytes _ => 32
  | .string _ => 32
  | .array _ => 32
  | .fixedArray elems => if anyDynT elems then 32 else headsTotal elems
  | .tuple elems => if anyDynT elems then 32 else headsTotal elems

/-- Summed head sizes of a token list. -/
def headsTotal : List Token → Nat
  | [] => 0
  | v :: vs => headSize v + headsTotal vs

end

mutual

/-- Encoding of one token: the inline form for static tokens, the tail form
for dynamic ones.  Composite tokens contain a fresh frame of their elements
(heads, then tails, with offsets counted from the frame start, the first
tail placed right after the heads). -/
def encToken : Token → List Nat
  | .uint n => byteWord n
  | .int n => byteWord n
  | .address a => byteWord a
  | .bool b => byteWord (cond b 1 0)
  | .fixedBytes v => v ++ List.replicate (32 - v.length) 0
  | .bytes v => byteWord v.length ++ v ++ List.replicate (padLen v.length) 0
  | .string v => byteWord v.length ++ v ++ List.replicate (padLen v.length) 0
  | .array elems => byteWord elems.length ++ encHeads elems (headsTotal elems) ++ encTails elems
  | .fixedArray elems => encHeads elems (headsTotal elems) ++ encTails elems
  | .tuple elems => encHeads elems (headsTotal elems) ++ encTails elems

/-- Head region of a frame: static tokens inline, dynamic tokens as offset
words; `off` is the offset at which the next tail will be placed. -/
def encHeads : List Token → Nat → List Nat
  | [], _ => []
  | v :: vs, off =>
    if v.isDynamic then byteWord off ++ encHeads vs (off + (encToken v).length)
    else encToken v ++ encHeads vs off

/-- Tail region of a frame: the tails of the dynamic tokens, in order. -/
def encTails : List Token → List Nat
  | [] => []
  | v :: vs => (if v.isDynamic then encToken v else []) ++ encTails vs

end

/-- ABI encoding of a token sequence (`ethabi::encode`): the sequence forms
the top-level frame. -/
def encodeTokens (vs : List Token) : List Nat :=
  encHeads vs (headsTotal vs) ++ encTails vs

/-- Read the 32-byte word at byte offset `off`, if in range. -/
def readWord (bs : List Nat) (off : Nat) : Option Nat :=
  if off + 32 ≤ bs.length then some (wordToNat ((bs.drop off).take 32)) else none

mutual

/-- Decode the value of type `t` whose head lives at byte position `pos` of
`frame` (`ethabi::decode_param`).  Dynamic composites re-slice the frame at
the offset read from the head, exactly as `ethabi` takes sub-slices. -/
def decToken (frame : List Nat) (t : ParamType) (pos : Nat) : Option Token :=
  match t with
  | .uint _ => (readWord frame pos).map Token.uint
  | .int _ => (readWord frame pos).map Token.int
  | .address => (readWord frame pos).map (fun w => Token.address (w % 2 ^ 160))
  | .bool =>
    (readWord frame pos).bind fun w =>
      if w < 256 then some (Token.bool (w == 1)) else none
  | .fixedBytes n =>
    if pos + n ≤ frame.length then some (Token.fixedBytes ((frame.drop pos).take n)) else none
  | .bytes =>
    (readWord frame pos).bind fun off =>
      (readWord frame off).bind fun len =>
        if off + 32 + len ≤ frame.length then
          some (Token.bytes ((frame.drop (off + 32)).take len))
        else none
  | .string =>
    (readWord frame pos).bind fun off =>
      (readWord frame off).bind fun len =>
        if off + 32 + len ≤ frame.length then
          some (Token.string ((frame.drop (off + 32)).take len))
        else none
  | .array t2 =>
    (readWord frame pos).bind fun off =>
      (readWord frame off).bind fun n =>
        (decElems (frame.drop (off + 32)) t2 n 0).map Token.array
  | .fixedArray t2 n =>
    if t2.isDynamic then
      (readWord frame pos).bind fun off =>
        (decElems (frame.drop off) t2 n 0).map Token.fixedArray
    else
      (decElems frame t2 n pos).map Token.fixedArray
  | .tuple ts =>
    if anyDynP ts then
      (readWord frame pos).bind fun off =>
        (decSeq (frame.drop off) ts 0).map Token.tuple
    else
      (decSeq frame ts pos).map Token.tuple

/-- Decode `n` values of element type `t`, advancing by the head size. -/
def decElems (frame : List Nat) (t : ParamType) (n : Nat) (pos : Nat) : Option (List Token) :=
  match n with
  | 0 => some []
  | n + 1 =>
    match decToken frame t pos with
    | none => none
    | some v =>
      match decElems frame t n (pos + paramHeadSize t) with
      | none => none
      | some vs => some (v :: vs)

/-- Decode a sequence of types, advancing by each head size. -/
def decSeq (frame : List Nat) (ts : List ParamType) (pos : Nat) : Option (List Token) :=
  match ts with
  | [] => some []
  | t :: ts =>
    match decToken frame t pos with
    | none => none
    | some v =>
      match decSeq frame ts (pos + paramHeadSize t) with
      | none => none
      | some vs => some (v :: vs)

end

/-- ABI decoding of a byte string against a list of types
(`ethabi::decode`): the bytes form the top-level frame. -/
def decodeTokens (ts : List ParamType) (bs : List Nat) : Option (List Token) :=
  decSeq bs ts 0

/-- Modelled from the spec: `Function::encode_input` type-checks the argument
list against the declared inputs (`EncodingError` on mismatch) and ABI-encodes
it; the external keccak selector prefix is not modelled. -/
def encodeInput (f : Function) (args : List Token) : Except CallError (List Nat) :=
  if typeCheckList args f.inputs then .ok (encodeTokens args) else .error .EncodingError

/-- Modelled from the spec: `Function::decode_output` decodes raw output bytes
against the declared return types. -/
def decodeOutput (f : Function) (bs : List Nat) : Option (List Token) :=
  decodeTokens f.outputs bs

/-! ## Hex utilities

Modelled from the spec: `crate::util::{from_hex, to_hex}` are external
collaborators with the contract "bytes to lowercase hex string with 0x
prefix" and back. -/

/-- Lowercase hex digit for `n < 16`. -/
def hexDigit (n : Nat) : Char :=
  if n < 10 then Char.ofNat (48 + n) else Char.ofNat (87 + n)

/-- Hex value of a lowercase hex digit character. -/
def hexVal (c : Char) : Option Nat :=
  if 48 ≤ c.toNat ∧ c.toNat ≤ 57 then some (c.toNat - 48)
  else if 97 ≤ c.toNat ∧ c.toNat ≤ 102 then some (c.toNat - 87)
  else none

/-- Modelled from the spec: bytes to lowercase 0x-prefixed hex string. -/
def toHex (bs : List Nat) : String :=
  "0x" ++ String.mk (bs.foldr (fun b acc => hexDigit (b / 16 % 16) :: hexDigit (b % 16) :: acc) [])

/-- Digit pairs of a hex string body. -/
def hexPairs : List Char → Option (List Nat)
  | [] => some []
  | [_] => none
  | c1 :: c2 :: rest =>
    match hexVal c1, hexVal c2 with
    | some a, some b =>
      match hexPairs rest with
      | some bs => some ((16 * a + b) :: bs)
      | none => none
    | _, _ => none

/-- Modelled from the spec: 0x-prefixed hex string back to bytes. -/
def fromHex (s : String) : Option (List Nat) :=
  if ("0x" : String).data.isPrefixOf s.data then hexPairs (s.data.drop 2) else none

/-! ## JSON-RPC envelope (lines 16-28 and 106-118) -/

/-- The call target descriptor placed in the request parameters. -/
structure EthCallData where
  recipient : String
  payload : String
deriving DecidableEq, Inhabited

/-- The JSON-RPC request envelope. -/
structure RpcRequest where
  request_id : Nat
  version : String
  action : String
  parameters : EthCallData × String
deriving DecidableEq, Inhabited

/-- Envelope construction as performed at lines 106-117: fixed version `2.0`,
fixed action `eth_call`, block tag fixed to `latest`. -/
def buildRpcRequest (id : Nat) (recipient payload : String) : RpcRequest :=
  { request_id := id
    version := "2.0"
    action := "eth_call"
    parameters := ({ recipient := recipient, payload := payload }, "latest") }

/-- JSON string escaping as performed by the serializer: quote and backslash
are backslash-escaped, the control characters 8-13 get their short escapes,
other control characters a lowercase unicode escape. -/
def escapeChars : List Char → List Char
  | [] => []
  | c :: cs =>
    (if c = '"' then ['\\', '"']
     else if c = '\\' then ['\\', '\\']
     else if c.toNat = 8 then ['\\', 'b']
     else if c.toNat = 9 then ['\\', 't']
     else if c.toNat = 10 then ['\\', 'n']
     else if c.toNat = 12 then ['\\', 'f']
     else if c.toNat = 13 then ['\\', 'r']
     else if c.toNat < 32 then ['\\', 'u', '0', '0', hexDigit (c.toNat / 16), hexDigit (c.toNat % 16)]
     else [c]) ++ escapeChars cs

/-- JSON rendering of a string value, quotes included. -/
def jsonStr (s : String) : String :=
  "\"" ++ String.mk (escapeChars s.data) ++ "\""

/-- Modelled from the spec: `serde_json::to_string` for `EthCallData`
(derived serializer, fields in declaration order). -/
def ethCallDataJson (d : EthCallData) : String :=
  "\x7b\"recipient\":" ++ jsonStr d.recipient ++ ",\"payload\":" ++ jsonStr d.payload ++ "\x7d"

/-- Modelled from the spec: `serde_json::to_string` for `RpcRequest`
(derived serializer; the two-tuple `parameters` serializes as a JSON array). -/
def rpcRequestJson (r : RpcRequest) : String :=
  "\x7b\"request_id\":" ++ Nat.repr r.request_id ++ ",\"version\":" ++ jsonStr r.version
    ++ ",\"action\":" ++ jsonStr r.action ++ ",\"parameters\":["
    ++ ethCallDataJson r.parameters.1 ++ "," ++ jsonStr r.parameters.2 ++ "]\x7d"

/-! ## Request identity generator (`generate_request_id`, lines 54-64)

The `thread_local!` cell `REQUEST_ID : RefCell<u64>` becomes an explicit
`Nat` state kept below `2 ^ 64`; `RefCell::default()` initializes it to 0. -/

/-- Initial value of the `REQUEST_ID` cell (`RefCell::default()`). -/
def requestIdInit : Nat := 0

/-- One call to `generate_request_id`: returns the current counter and the
new counter state after the wrapping 64-bit increment. -/
def generate_request_id (s : Nat) : Nat × Nat := (s, (s + 1) % 2 ^ 64)

/-! ## Network resolver (`determine_rpc_url`, lines 67-74) -/

def determine_rpc_url (network : String) : Except CallError String :=
  if network = "mainnet" ∨ network = "ethereum" then .ok "https://cloudflare-eth.com/v1/mainnet"
  else if network = "goerli" then .ok "https://ethereum-goerli.publicnode.com"
  else if network = "sepolia" then .ok "https://rpc.sepolia.org"
  else .error .UnsupportedNetwork

/-- The recognized network identifiers. -/
def supportedNetworks : List String := ["mainnet", "ethereum", "goerli", "sepolia"]

/-- Modelled from the spec: the host component of an https URL as extracted by
`url::Url::parse(...).host_str()` — the text between the `https://` scheme
prefix and the next slash (none of the configured endpoints carries a port or
userinfo). -/
def hostOf (u : String) : Option String :=
  if ("https://" : String).data.isPrefixOf u.data then
    some (String.mk ((u.data.drop 8).takeWhile (fun c => c ≠ '/')))
  else none

/-- Well-formedness of an HTTPS URL: https scheme and a nonempty host. -/
def isHttpsUrl (u : String) : Prop :=
  ("https://" : String).data.isPrefixOf u.data = true ∧
    ∃ h, hostOf u = some h ∧ h ≠ ""

/-! ## HTTP outcall construction (lines 12-13 and 120-147) -/

/-- Maximum response size accepted from the transport (`MAX_BYTES`). -/
def MAX_BYTES : Nat := 2048

/-- Cycles attached to the outcall (`CYCLES_COST`). -/
def CYCLES_COST : Nat := 100000000

inductive HttpMethod where
  | POST
deriving DecidableEq, Inhabited

structure HttpHeader where
  name : String
  value : String
deriving DecidableEq, Inhabited

/-- The outbound request record (`CanisterHttpRequestArgument`).  The body is
kept as the payload string (the Rust code sends its UTF-8 bytes); `transform`
holds the name of the registered transform function. -/
structure CanisterHttpRequestArgument where
  url : String
  max_response_bytes : Option Nat
  method : HttpMethod
  headers : List HttpHeader
  body : Option String
  transform : Option String
deriving DecidableEq, Inhabited

/-! ## Response handling (lines 30-40 and 156-168) -/

structure RpcErrorDetail where
  error_code : Int
  error_message : String
deriving DecidableEq, Inhabited

structure RpcResponse where
  outcome : Option String
  rpc_error : Option RpcErrorDetail
deriving DecidableEq, Inhabited

/-- The response-handling tail of `execute_contract_call` (lines 159-168),
after the body has been parsed into an `RpcResponse`: a present `rpc_error`
fails the call with the remote code and message; otherwise `outcome` must be
present, is hex-decoded, and its bytes are handed to the output decoder
`decodeOut` (passed as a parameter so that non-invocation is expressible). -/
def handleRpcResponse (decodeOut : List Nat → Except CallError (List Token))
    (r : RpcResponse) : Except CallError (List Token) :=
  match r.rpc_error with
  | some e => .error (.RpcError e.error_code e.error_message)
  | none =>
    match r.outcome with
    | none => .error .MissingOutcome
    | some s =>
      match fromHex s with
      | none => .error .MalformedResponse
      | some bs => decodeOut bs

/-- Lines 159-168 with the output decoder instantiated to the resolved
function's `decode_output`. -/
def processRpcResponse (f : Function) (r : RpcResponse) : Except CallError (List Token) :=
  handleRpcResponse
    (fun bs =>
      match decodeOutput f bs with
      | some vs => .ok vs
      | none => .error .DecodingError)
    r

/-! ## Request construction pipeline (lines 77-147)

The front half of `execute_contract_call`, in source order, up to the point
where the HTTP request is handed to the transport: resolve the function,
encode the arguments, draw a request id (this is where the counter state
advances), build and serialize the envelope, resolve the network URL, derive
the Host header, and assemble the outbound request.  The counter state is
passed explicitly; it is the only state the pipeline touches. -/

def buildRequest (s : Nat) (network : String) (address : String) (abi : Contract)
    (methodName : String) (args : List Token) :
    Except CallError CanisterHttpRequestArgument × Nat :=
  match resolveFunction abi methodName with
  | .error e => (.error e, s)
  | .ok f =>
    match encodeInput f args with
    | .error e => (.error e, s)
    | .ok encoded_data =>
      let rpc_payload := rpcRequestJson (buildRpcRequest s address (toHex encoded_data))
      let s' := (s + 1) % 2 ^ 64
      match determine_rpc_url network with
      | .error e => (.error e, s')
      | .ok rpc_url =>
        match hostOf rpc_url with
        | none => (.error .InvalidUrl, s')
        | some host_header =>
          (.ok { url := rpc_url
                 max_response_bytes := some MAX_BYTES
                 method := .POST
                 headers := [{ name := "Content-Type", value := "application/json" },
                             { name := "Host", value := host_header }]
                 body := some rpc_payload
                 transform := some "handle_transform" }, s')

/-! ## Response transform (`handle_transform`, lines 171-179) -/

/-- The raw HTTP response as seen by the transform (status, body, headers). -/
structure HttpResponse where
  status : Nat
  body : List Nat
  headers : List HttpHeader
deriving DecidableEq, Inhabited

structure TransformArgs where
  response : HttpResponse
  context : List Nat
deriving DecidableEq, Inhabited

/-- The registered response transform: keep status and body, drop all
headers. -/
def handle_transform (args : TransformArgs) : HttpResponse :=
  { status := args.response.status
    body := args.response.body
    headers := [] }

/-! ## Concrete interfaces used to instantiate the theorems -/

/-- An interface with a single function named `balanceOf`. -/
def balanceAbi : Contract :=
  ⟨[{ name := "balanceOf", inputs := [.address], outputs := [.uint 256] }]⟩

/-- An interface with two overloads of `transfer`. -/
def transferAbi : Contract :=
  ⟨[{ name := "transfer", inputs := [.address, .uint 256], outputs := [.bool] },
    { name := "transfer", inputs := [.address], outputs := [.bool] }]⟩

/-! ## Invariants used by the ABI round-trip proof -/

/-- Containment: the byte string `e` occupies positions `p` to
`p + e.length` of `frame`. -/
def containsAt (frame e : List Nat) (p : Nat) : Prop :=
  p + e.length ≤ frame.length ∧ (frame.drop p).take e.length = e

/-- Round-trip statement for one token: against any matching type, a static
token decodes from its inline encoding sitting at the read position, and a
dynamic token decodes from an offset word at the read position whose target
holds its tail encoding. -/
def DecodesOK (v : Token) : Prop :=
  ∀ (frame : List Nat) (t : ParamType) (pos : Nat),
    frame.length < 2 ^ 256 → typeCheck v t = true → Token.wf v = true →
    ((v.isDynamic = false → containsAt frame (encToken v) pos →
        decToken frame t pos = some v) ∧
     (v.isDynamic = true → ∀ off, containsAt frame (byteWord off) pos →
        containsAt frame (encToken v) off → decToken frame t pos = some v))

/-! ## General helper lemmas -/

theorem strCongr {a b x y : String} (h1 : a = b) (h2 : x = y) : a ++ x = b ++ y := by
  rw [h1, h2]

theorem strDataAppend (a b : String) : (a ++ b).data = a.data ++ b.data := rfl

/-- C3: the response transform is a pure function of its argument; it keeps
the status and body verbatim and empties the header list.  Hence two raw
responses agreeing on status and body transform identically, and two raw
responses with different bodies transform differently. -/
theorem claim3_transform_pure (a b c : TransformArgs) :
    (handle_transform a).status = a.response.status ∧
    (handle_transform a).body = a.response.body ∧
    (handle_transform a).headers = [] ∧
    (a.response.status = b.response.status → a.response.body = b.response.body →
      handle_transform a = handle_transform b) ∧
    (a.response.body ≠ c.response.body → handle_transform a ≠ handle_transform c) := by
  refine ⟨rfl, rfl, rfl, ?_, ?_⟩
  · intro h1 h2
    simp [handle_transform, h1, h2]
  · intro hne heq
    have hb := congrArg HttpResponse.body heq
    exact hne hb

theorem claim3_transform_pure_witness :
    handle_transform ⟨⟨200, [1, 2], [⟨"Date", "Mon"⟩]⟩, []⟩
      = handle_transform ⟨⟨200, [1, 2], [⟨"Server", "nginx"⟩]⟩, []⟩ ∧
    handle_transform ⟨⟨200, [1, 2], [⟨"Date", "Mon"⟩]⟩, []⟩
      ≠ handle_transform ⟨⟨200, [9], [⟨"Date", "Mon"⟩]⟩, []⟩ := by
  have h := claim3_transform_pure ⟨⟨200, [1, 2], [⟨"Date", "Mon"⟩]⟩, []⟩
    ⟨⟨200, [1, 2], [⟨"Server", "nginx"⟩]⟩, []⟩ ⟨⟨200, [9], [⟨"Date", "Mon"⟩]⟩, []⟩
  exact ⟨h.2.2.2.1 rfl rfl, h.2.2.2.2 (by decide)⟩

/-- C5: every recognized network identifier resolves to a well-formed HTTPS
URL; every other identifier fails with `UnsupportedNetwork`.  The resolver
is a pure lookup (a Lean function of the identifier alone). -/
theorem claim5_network_urls (network : String) :
    (network ∈ supportedNetworks →
      ∃ u, determine_rpc_url network = .ok u ∧ isHttpsUrl u) ∧
    (network ∉ supportedNetworks →
      determine_rpc_url network = .error .UnsupportedNetwork) := by
  constructor
  · intro hmem
    simp only [supportedNetworks, List.mem_cons, List.not_mem_nil, or_false] at hmem
    rcases hmem with h | h | h | h <;> subst h
    · exact ⟨_, rfl, by decide, "cloudflare-eth.com", rfl, by decide⟩
    · exact ⟨_, rfl, by decide, "cloudflare-eth.com", rfl, by decide⟩
    · exact ⟨_, rfl, by decide, "ethereum-goerli.publicnode.com", rfl, by decide⟩
    · exact ⟨_, rfl, by decide, "rpc.sepolia.org", rfl, by decide⟩
  · intro hmem
    simp only [supportedNetworks, List.mem_cons, List.not_mem_nil, or_false, not_or] at hmem
    obtain ⟨h1, h2, h3, h4⟩ := hmem
    rw [determine_rpc_url, if_neg (by tauto), if_neg h3, if_neg h4]

theorem claim5_network_urls_witness :
    (∃ u, determine_rpc_url "mainnet" = .ok u ∧ isHttpsUrl u) ∧
    determine_rpc_url "polygon" = .error .UnsupportedNetwork :=
  ⟨(claim5_network_urls "mainnet").1 (by decide),
   (claim5_network_urls "polygon").2 (by decide)⟩

/-- C7: the request-id counter starts at 0; each call returns the current
counter and advances it by one with wrapping 64-bit arithmetic, so two
successive calls return distinct identifiers when no wraparound occurs. -/
theorem claim7_request_id_counter (s : Nat) :
    requestIdInit = 0 ∧
    (generate_request_id s).1 = s ∧
    (generate_request_id s).2 = (s + 1) % 2 ^ 64 ∧
    (s + 1 < 2 ^ 64 →
      (generate_request_id ((generate_request_id s).2)).1 ≠ (generate_request_id s).1) := by
  refine ⟨rfl, rfl, rfl, ?_⟩
  intro h
  simp only [generate_request_id, Nat.mod_eq_of_lt h]
  omega

theorem claim7_request_id_counter_witness :
    (generate_request_id ((generate_request_id 0).2)).1 ≠ (generate_request_id 0).1 :=
  (claim7_request_id_counter 0).2.2.2 (by norm_num)

/-- C2: whenever the parsed response carries an `rpc_error`, the call fails
with exactly that code and message, whether or not an `outcome` is present;
the quantification over the output decoder `d` expresses that the decoder is
never invoked (the result does not depend on it). -/
theorem claim2_rpc_error_short_circuit (f : Function)
    (d : List Nat → Except CallError (List Token)) (r : RpcResponse)
    (e : RpcErrorDetail) (he : r.rpc_error = some e) :
    handleRpcResponse d r = .error (.RpcError e.error_code e.error_message) ∧
    processRpcResponse f r = .error (.RpcError e.error_code e.error_message) := by
  constructor
  · simp only [handleRpcResponse, he]
  · simp only [processRpcResponse, handleRpcResponse, he]

theorem claim2_rpc_error_short_circuit_witness :
    handleRpcResponse (fun _ => .ok []) ⟨none, some ⟨-32000, "execution reverted"⟩⟩
      = .error (.RpcError (-32000) "execution reverted") ∧
    processRpcResponse ⟨"f", [], []⟩ ⟨none, some ⟨-32000, "execution reverted"⟩⟩
      = .error (.RpcError (-32000) "execution reverted") :=
  claim2_rpc_error_short_circuit ⟨"f", [], []⟩ (fun _ => .ok [])
    ⟨none, some ⟨-32000, "execution reverted"⟩⟩ ⟨-32000, "execution reverted"⟩ rfl

/-- C9: with `rpc_error` absent, an absent `outcome` fails the call with
`MissingOutcome`; a present `outcome` is hex-decoded and its bytes are handed
to the output decoder. -/
theorem claim9_outcome_handling (d : List Nat → Except CallError (List Token))
    (r : RpcResponse) (s : String) (bs : List Nat) :
    (r.rpc_error = none → r.outcome = none →
      handleRpcResponse d r = .error .MissingOutcome) ∧
    (r.rpc_error = none → r.outcome = some s → fromHex s = some bs →
      handleRpcResponse d r = d bs) := by
  constructor
  · intro h1 h2
    simp only [handleRpcResponse, h1, h2]
  · intro h1 h2 h3
    simp only [handleRpcResponse, h1, h2, h3]

theorem glue6 (a1 a2 a3 a4 a5 a6 b : String)
    (h : a1 ++ a2 ++ a3 ++ a4 ++ a5 ++ a6 = b) (x : String) :
    a1 ++ (a2 ++ (a3 ++ (a4 ++ (a5 ++ (a6 ++ x))))) = b ++ x := by
  rw [← h]
  simp [String.append_assoc]

/-- C6: the envelope always carries version `2.0`, action `eth_call` and the
block tag `latest`, and serializes to the documented JSON object shape. -/
theorem claim6_request_shape (id : Nat) (r p : String) :
    (buildRpcRequest id r p).version = "2.0" ∧
    (buildRpcRequest id r p).action = "eth_call" ∧
    (buildRpcRequest id r p).parameters.2 = "latest" ∧
    rpcRequestJson (buildRpcRequest id r p) =
      "\x7b\"request_id\":" ++ Nat.repr id
        ++ ",\"version\":\"2.0\",\"action\":\"eth_call\",\"parameters\":[\x7b\"recipient\":"
        ++ jsonStr r ++ ",\"payload\":" ++ jsonStr p ++ "\x7d,\"latest\"]\x7d" := by
  refine ⟨rfl, rfl, rfl, ?_⟩
  have h0 : rpcRequestJson (buildRpcRequest id r p)
      = "\x7b\"request_id\":" ++ Nat.repr id ++ ",\"version\":" ++ jsonStr "2.0"
        ++ ",\"action\":" ++ jsonStr "eth_call" ++ ",\"parameters\":["
        ++ ("\x7b\"recipient\":" ++ jsonStr r ++ ",\"payload\":" ++ jsonStr p ++ "\x7d")
        ++ "," ++ jsonStr "latest" ++ "]\x7d" := rfl
  rw [h0]
  simp only [String.append_assoc]
  apply strCongr rfl
  apply strCongr rfl
  rw [glue6 ",\"version\":" (jsonStr "2.0") ",\"action\":" (jsonStr "eth_call")
    ",\"parameters\":[" "\x7b\"recipient\":"
    ",\"version\":\"2.0\",\"action\":\"eth_call\",\"parameters\":[\x7b\"recipient\":" rfl]
  apply strCongr rfl
  apply strCongr rfl
  apply strCongr rfl
  apply strCongr rfl
  rfl

/-! ## Word-level lemmas for the ABI round trip -/

theorem length_beBytes (k : Nat) : ∀ n, (beBytes k n).length = k := by
  induction k with
  | zero => intro n; rfl
  | succ k ih => intro n; simp [beBytes, ih]

theorem length_byteWord (n : Nat) : (byteWord n).length = 32 := length_beBytes 32 n

theorem wordToNat_snoc (l : List Nat) (b : Nat) :
    wordToNat (l ++ [b]) = wordToNat l * 256 + b := by
  simp [wordToNat, List.foldl_append]

theorem wordToNat_beBytes (k : Nat) : ∀ n, wordToNat (beBytes k n) = n % 256 ^ k := by
  induction k with
  | zero => intro n; simp [beBytes, wordToNat, Nat.mod_one]
  | succ k ih =>
    intro n
    rw [beBytes, wordToNat_snoc, ih]
    have h1 : n % (256 * 256 ^ k) / 256 = n / 256 % 256 ^ k :=
      Nat.mod_mul_right_div_self n 256 (256 ^ k)
    have h2 : n % (256 * 256 ^ k) % 256 = n % 256 := Nat.mod_mod_of_dvd n ⟨256 ^ k, rfl⟩
    have hp : (256 : Nat) ^ (k + 1) = 256 * 256 ^ k := by ring
    rw [hp, ← h1, ← h2]
    set x := n % (256 * 256 ^ k) with hx
    omega

theorem wordToNat_byteWord (n : Nat) (h : n < 2 ^ 256) : wordToNat (byteWord n) = n := by
  rw [byteWord, wordToNat_beBytes]
  have h2 : (256 : Nat) ^ 32 = 2 ^ 256 := by norm_num
  rw [h2]
  exact Nat.mod_eq_of_lt h

/-- Splitting a `take` of an append into its two parts. -/
theorem take_append_split {α : Type} {l a b : List α}
    (h : l.take (a.length + b.length) = a ++ b) :
    l.take a.length = a ∧ (l.drop a.length).take b.length = b := by
  constructor
  · have h1 := congrArg (List.take a.length) h
    rwa [List.take_take, min_eq_left (Nat.le_add_right _ _), List.take_left] at h1
  · have h2 := congrArg (List.drop a.length) h
    rwa [← List.take_drop, List.drop_left] at h2

/-! ## Containment lemmas -/

theorem containsAt_split {frame a b : List Nat} {p : Nat}
    (h : containsAt frame (a ++ b) p) :
    containsAt frame a p ∧ containsAt frame b (p + a.length) := by
  obtain ⟨h1, h2⟩ := h
  rw [List.length_append] at h1 h2
  obtain ⟨ha, hb⟩ := take_append_split h2
  refine ⟨⟨by omega, ha⟩, ⟨by omega, ?_⟩⟩
  rwa [List.drop_drop] at hb

theorem containsAt_drop {frame e : List Nat} (o q : Nat)
    (h : containsAt frame e (o + q)) : containsAt (frame.drop o) e q := by
  obtain ⟨h1, h2⟩ := h
  refine ⟨by rw [List.length_drop]; omega, ?_⟩
  rw [List.drop_drop]
  exact h2

theorem containsAt_nil {frame : List Nat} {p : Nat} (h : p ≤ frame.length) :
    containsAt frame [] p := ⟨h, rfl⟩

theorem readWord_of_containsAt {frame : List Nat} {x p : Nat} (hx : x < 2 ^ 256)
    (h : containsAt frame (byteWord x) p) : readWord frame p = some x := by
  obtain ⟨h1, h2⟩ := h
  rw [length_byteWord] at h1 h2
  rw [readWord, if_pos h1, h2, wordToNat_byteWord x hx]

/-! ## Dynamic-flag and size agreement lemmas -/

theorem isDynamic_false_of_not_true {v : Token} (h : ¬ v.isDynamic = true) :
    v.isDynamic = false := by
  cases h2 : v.isDynamic
  · rfl
  · exact absurd h2 h

theorem headSize_of_dynamic {v : Token} (h : v.isDynamic = true) : headSize v = 32 := by
  cases v <;> simp_all [Token.isDynamic, headSize]

theorem anyDynT_false_of_all {vs : List Token}
    (h : ∀ v ∈ vs, v.isDynamic = false) : anyDynT vs = false := by
  induction vs with
  | nil => rfl
  | cons v vs ih =>
    rw [anyDynT, h v (List.mem_cons_self v vs),
      ih (fun w hw => h w (List.mem_cons_of_mem _ hw))]
    rfl

theorem encTails_nil_of_static {vs : List Token} (h : anyDynT vs = false) :
    encTails vs = [] := by
  induction vs with
  | nil => rfl
  | cons v vs ih =>
    rw [anyDynT, Bool.or_eq_false_iff] at h
    rw [encTails, h.1, ih h.2]
    rfl

theorem typeCheckElems_forall {vs : List Token} {t : ParamType}
    (h : typeCheckElems vs t = true) : ∀ v ∈ vs, typeCheck v t = true := by
  induction vs with
  | nil => intro v hv; simp at hv
  | cons v vs ih =>
    rw [typeCheckElems, Bool.and_eq_true] at h
    intro w hw
    rcases List.mem_cons.mp hw with h1 | h1
    · subst h1; exact h.1
    · exact ih h.2 w h1

theorem anyDynT_eq_anyDynP {vs : List Token} {ts : List ParamType}
    (hmem : ∀ v ∈ vs, ∀ t, typeCheck v t = true → v.isDynamic = ParamType.isDynamic t)
    (h : typeCheckList vs ts = true) : anyDynT vs = anyDynP ts := by
  induction vs generalizing ts with
  | nil =>
    cases ts with
    | nil => rfl
    | cons t ts => simp [typeCheckList] at h
  | cons v vs ih =>
    cases ts with
    | nil => simp [typeCheckList] at h
    | cons t ts =>
      rw [typeCheckList, Bool.and_eq_true] at h
      have h1 := hmem v (List.mem_cons_self v vs) t h.1
      have h2 := ih (fun w hw t2 ht => hmem w (List.mem_cons_of_mem _ hw) t2 ht) h.2
      rw [anyDynT, anyDynP, h1, h2]

theorem anyDynT_eq_of_elems {vs : List Token} {t : ParamType}
    (hmem : ∀ v ∈ vs, ∀ t2, typeCheck v t2 = true → v.isDynamic = ParamType.isDynamic t2)
    (h : typeCheckElems vs t = true) (hne : vs ≠ []) : anyDynT vs = t.isDynamic := by
  cases vs with
  | nil => exact absurd rfl hne
  | cons v vs =>
    have hall : ∀ w ∈ v :: vs, w.isDynamic = t.isDynamic := fun w hw =>
      hmem w hw t (typeCheckElems_forall h w hw)
    cases hdyn : t.isDynamic with
    | true =>
      rw [anyDynT, hall v (List.mem_cons_self v vs), hdyn]
      rfl
    | false =>
      apply anyDynT_false_of_all
      intro u hu
      rw [hall u hu, hdyn]

/-- The dynamic flag of a token agrees with that of any type it checks
against. -/
theorem isDynamic_of_typeCheck_aux : ∀ (k : Nat) (v : Token), sizeOf v ≤ k →
    ∀ t, typeCheck v t = true → v.isDynamic = ParamType.isDynamic t := by
  intro k
  induction k with
  | zero =>
    intro v hv
    exfalso
    cases v <;> simp at hv
  | succ k ih =>
    intro v hv t htc
    cases v with
    | uint n => cases t <;> simp_all [typeCheck, Token.isDynamic, ParamType.isDynamic]
    | int n => cases t <;> simp_all [typeCheck, Token.isDynamic, ParamType.isDynamic]
    | address a => cases t <;> simp_all [typeCheck, Token.isDynamic, ParamType.isDynamic]
    | bool b => cases t <;> simp_all [typeCheck, Token.isDynamic, ParamType.isDynamic]
    | fixedBytes w => cases t <;> simp_all [typeCheck, Token.isDynamic, ParamType.isDynamic]
    | bytes w => cases t <;> simp_all [typeCheck, Token.isDynamic, ParamType.isDynamic]
    | string w => cases t <;> simp_all [typeCheck, Token.isDynamic, ParamType.isDynamic]
    | array elems =>
      cases t <;> simp only [typeCheck, Bool.false_eq_true] at htc
      simp_all [Token.isDynamic, ParamType.isDynamic]
    | fixedArray elems =>
      have hmem : ∀ w ∈ elems, ∀ t3, typeCheck w t3 = true →
          w.isDynamic = ParamType.isDynamic t3 := by
        intro w hw t3 ht3
        refine ih w ?_ t3 ht3
        have h1 := List.sizeOf_lt_of_mem hw
        have h2 : sizeOf (Token.fixedArray elems) = 1 + sizeOf elems := by simp
        omega
      cases t <;> simp only [typeCheck, Bool.and_eq_true, Bool.false_eq_true] at htc
      case fixedArray t2 n =>
        obtain ⟨⟨hlen, hguard⟩, helems⟩ := htc
        show anyDynT elems = t2.isDynamic
        cases helems2 : elems with
        | nil =>
          subst helems2
          have hn : 0 = n := by simpa using hlen
          subst hn
          have hg2 : t2.isDynamic = false := by
            rcases Bool.or_eq_true_iff.mp hguard with h | h
            · exact absurd (of_decide_eq_true h) (by omega)
            · simpa using h
          rw [hg2]
          rfl
        | cons w ws =>
          rw [← helems2]
          exact anyDynT_eq_of_elems hmem helems (by rw [helems2]; simp)
    | tuple elems =>
      have hmem : ∀ w ∈ elems, ∀ t3, typeCheck w t3 = true →
          w.isDynamic = ParamType.isDynamic t3 := by
        intro w hw t3 ht3
        refine ih w ?_ t3 ht3
        have h1 := List.sizeOf_lt_of_mem hw
        have h2 : sizeOf (Token.tuple elems) = 1 + sizeOf elems := by simp
        omega
      cases t <;> simp only [typeCheck, Bool.false_eq_true] at htc
      case tuple ts =>
        show anyDynT elems = anyDynP ts
        exact anyDynT_eq_anyDynP hmem htc

theorem isDynamic_of_typeCheck (v : Token) (t : ParamType)
    (h : typeCheck v t = true) : v.isDynamic = ParamType.isDynamic t :=
  isDynamic_of_typeCheck_aux (sizeOf v) v le_rfl t h

theorem headsTotal_eq_elems {vs : List Token} {t : ParamType}
    (hmem : ∀ v ∈ vs, ∀ t2, typeCheck v t2 = true → headSize v = paramHeadSize t2)
    (h : typeCheckElems vs t = true) : headsTotal vs = vs.length * paramHeadSize t := by
  induction vs with
  | nil => simp [headsTotal]
  | cons v vs ih =>
    rw [typeCheckElems, Bool.and_eq_true] at h
    rw [headsTotal, hmem v (List.mem_cons_self v vs) t h.1,
      ih (fun w hw t2 ht => hmem w (List.mem_cons_of_mem _ hw) t2 ht) h.2,
      List.length_cons]
    ring

theorem headsTotal_eq_list {vs : List Token} {ts : List ParamType}
    (hmem : ∀ v ∈ vs, ∀ t2, typeCheck v t2 = true → headSize v = paramHeadSize t2)
    (h : typeCheckList vs ts = true) : headsTotal vs = seqHeadSize ts := by
  induction vs generalizing ts with
  | nil =>
    cases ts with
    | nil => rfl
    | cons t ts => simp [typeCheckList] at h
  | cons v vs ih =>
    cases ts with
    | nil => simp [typeCheckList] at h
    | cons t ts =>
      rw [typeCheckList, Bool.and_eq_true] at h
      rw [headsTotal, seqHeadSize, hmem v (List.mem_cons_self v vs) t h.1,
        ih (fun w hw t2 ht => hmem w (List.mem_cons_of_mem _ hw) t2 ht) h.2]

/-- The head size of a token agrees with that of any type it checks
against. -/
theorem headSize_eq_aux : ∀ (k : Nat) (v : Token), sizeOf v ≤ k →
    ∀ t, typeCheck v t = true → headSize v = paramHeadSize t := by
  intro k
  induction k with
  | zero =>
    intro v hv
    exfalso
    cases v <;> simp at hv
  | succ k ih =>
    intro v hv t htc
    cases v with
    | uint n => cases t <;> simp_all [typeCheck, headSize, paramHeadSize]
    | int n => cases t <;> simp_all [typeCheck, headSize, paramHeadSize]
    | address a => cases t <;> simp_all [typeCheck, headSize, paramHeadSize]
    | bool b => cases t <;> simp_all [typeCheck, headSize, paramHeadSize]
    | fixedBytes w => cases t <;> simp_all [typeCheck, headSize, paramHeadSize]
    | bytes w => cases t <;> simp_all [typeCheck, headSize, paramHeadSize]
    | string w => cases t <;> simp_all [typeCheck, headSize, paramHeadSize]
    | array elems =>
      cases t <;> simp only [typeCheck, Bool.false_eq_true] at htc
      simp_all [headSize, paramHeadSize]
    | fixedArray elems =>
      have htc0 := htc
      have hmem : ∀ w ∈ elems, ∀ t3, typeCheck w t3 = true →
          headSize w = paramHeadSize t3 := by
        intro w hw t3 ht3
        refine ih w ?_ t3 ht3
        have h1 := List.sizeOf_lt_of_mem hw
        have h2 : sizeOf (Token.fixedArray elems) = 1 + sizeOf elems := by simp
        omega
      cases t <;> simp only [typeCheck, Bool.and_eq_true, Bool.false_eq_true] at htc
      case fixedArray t2 n =>
        obtain ⟨⟨hlen, _⟩, helems⟩ := htc
        have hdyneq : anyDynT elems = t2.isDynamic := by
          have h3 := isDynamic_of_typeCheck _ _ htc0
          simpa [Token.isDynamic, ParamType.isDynamic] using h3
        have hn : elems.length = n := by simpa using hlen
        show (if anyDynT elems then 32 else headsTotal elems)
            = (if t2.isDynamic then 32 else n * paramHeadSize t2)
        rw [hdyneq]
        cases hdyn : t2.isDynamic with
        | true => rfl
        | false =>
          rw [if_neg (by simp), if_neg (by simp), headsTotal_eq_elems hmem helems, hn]
    | tuple elems =>
      have hmem : ∀ w ∈ elems, ∀ t3, typeCheck w t3 = true →
          headSize w = paramHeadSize t3 := by
        intro w hw t3 ht3
        refine ih w ?_ t3 ht3
        have h1 := List.sizeOf_lt_of_mem hw
        have h2 : sizeOf (Token.tuple elems) = 1 + sizeOf elems := by simp
        omega
      have htc0 := htc
      cases t <;> simp only [typeCheck, Bool.false_eq_true] at htc
      case tuple ts =>
        have hdyneq : anyDynT elems = anyDynP ts := by
          have h3 := isDynamic_of_typeCheck _ _ htc0
          simpa [Token.isDynamic, ParamType.isDynamic] using h3
        show (if anyDynT elems then 32 else headsTotal elems)
            = (if anyDynP ts then 32 else seqHeadSize ts)
        rw [hdyneq]
        cases hdyn : anyDynP ts with
        | true => rfl
        | false => rw [if_neg (by simp), if_neg (by simp), headsTotal_eq_list hmem htc]

theorem headSize_eq (v : Token) (t : ParamType) (h : typeCheck v t = true) :
    headSize v = paramHeadSize t :=
  headSize_eq_aux (sizeOf v) v le_rfl t h

theorem encHeads_length_of : ∀ (vs : List Token),
    (∀ v ∈ vs, Token.wf v = true → v.isDynamic = false →
      (encToken v).length = headSize v) →
    wfAll vs = true → ∀ off, (encHeads vs off).length = headsTotal vs := by
  intro vs
  induction vs with
  | nil => intro _ _ off; rfl
  | cons v vs ih =>
    intro hmem hwf off
    rw [wfAll, Bool.and_eq_true] at hwf
    by_cases hd : v.isDynamic = true
    · rw [show encHeads (v :: vs) off
          = byteWord off ++ encHeads vs (off + (encToken v).length) from by
            simp [encHeads, hd]]
      rw [List.length_append, length_byteWord, headsTotal, headSize_of_dynamic hd,
        ih (fun w hw => hmem w (List.mem_cons_of_mem _ hw)) hwf.2]
    · have hd2 := isDynamic_false_of_not_true hd
      rw [show encHeads (v :: vs) off = encToken v ++ encHeads vs off from by
        simp [encHeads, hd2]]
      rw [List.length_append, headsTotal, hmem v (List.mem_cons_self v vs) hwf.1 hd2,
        ih (fun w hw => hmem w (List.mem_cons_of_mem _ hw)) hwf.2]

/-- A static token's encoding has exactly its head size. -/
theorem encToken_length_static_aux : ∀ (k : Nat) (v : Token), sizeOf v ≤ k →
    Token.wf v = true → v.isDynamic = false → (encToken v).length = headSize v := by
  intro k
  induction k with
  | zero =>
    intro v hv
    exfalso
    cases v <;> simp at hv
  | succ k ih =>
    intro v hv hwf hst
    cases v with
    | uint n => rw [encToken, length_byteWord]; rfl
    | int n => rw [encToken, length_byteWord]; rfl
    | address a => rw [encToken, length_byteWord]; rfl
    | bool b => rw [encToken, length_byteWord]; rfl
    | fixedBytes w =>
      rw [Token.wf, decide_eq_true_eq] at hwf
      rw [encToken, List.length_append, List.length_replicate]
      show w.length + (32 - w.length) = 32
      omega
    | bytes w => simp [Token.isDynamic] at hst
    | string w => simp [Token.isDynamic] at hst
    | array elems => simp [Token.isDynamic] at hst
    | fixedArray elems =>
      simp only [Token.isDynamic] at hst
      rw [Token.wf] at hwf
      have hmem : ∀ w ∈ elems, Token.wf w = true → w.isDynamic = false →
          (encToken w).length = headSize w := by
        intro w hw hw1 hw2
        refine ih w ?_ hw1 hw2
        have h1 := List.sizeOf_lt_of_mem hw
        have h2 : sizeOf (Token.fixedArray elems) = 1 + sizeOf elems := by simp
        omega
      rw [encToken, encTails_nil_of_static hst, List.append_nil,
        encHeads_length_of elems hmem hwf]
      show headsTotal elems = if anyDynT elems then 32 else headsTotal elems
      rw [hst]
      rfl
    | tuple elems =>
      simp only [Token.isDynamic] at hst
      rw [Token.wf] at hwf
      have hmem : ∀ w ∈ elems, Token.wf w = true → w.isDynamic = false →
          (encToken w).length = headSize w := by
        intro w hw hw1 hw2
        refine ih w ?_ hw1 hw2
        have h1 := List.sizeOf_lt_of_mem hw
        have h2 : sizeOf (Token.tuple elems) = 1 + sizeOf elems := by simp
        omega
      rw [encToken, encTails_nil_of_static hst, List.append_nil,
        encHeads_length_of elems hmem hwf]
      show headsTotal elems = if anyDynT elems then 32 else headsTotal elems
      rw [hst]
      rfl

theorem encToken_length_static (v : Token) (hwf : Token.wf v = true)
    (hst : v.isDynamic = false) : (encToken v).length = headSize v :=
  encToken_length_static_aux (sizeOf v) v le_rfl hwf hst

theorem encHeads_length {vs : List Token} (hwf : wfAll vs = true) (off : Nat) :
    (encHeads vs off).length = headsTotal vs :=
  encHeads_length_of vs (fun v _ => encToken_length_static v) hwf off

theorem take_append_of_length {A B : List Nat} {n : Nat} (h : A.length = n) :
    (A ++ B).take n = A := by
  rw [← h, List.take_left]

theorem drop_append_of_length {A B : List Nat} {n : Nat} (h : A.length = n) :
    (A ++ B).drop n = B := by
  rw [← h, List.drop_left]

/-! ## The round-trip induction -/

theorem decSeq_of_members : ∀ (vs : List Token),
    (∀ v ∈ vs, DecodesOK v) →
    ∀ (frame : List Nat) (ts : List ParamType) (pos off : Nat),
    frame.length < 2 ^ 256 →
    typeCheckList vs ts = true → wfAll vs = true →
    containsAt frame (encHeads vs off) pos →
    containsAt frame (encTails vs) off →
    decSeq frame ts pos = some vs := by
  intro vs
  induction vs with
  | nil =>
    intro _ frame ts pos off _ htc _ _ _
    cases ts with
    | nil => rw [decSeq]
    | cons t ts => simp [typeCheckList] at htc
  | cons v vs ih =>
    intro hP frame ts pos off hfr htc hwf hH hT
    cases ts with
    | nil => simp [typeCheckList] at htc
    | cons t ts =>
      rw [typeCheckList, Bool.and_eq_true] at htc
      rw [wfAll, Bool.and_eq_true] at hwf
      obtain ⟨htc1, htc2⟩ := htc
      obtain ⟨hwf1, hwf2⟩ := hwf
      have hPv := hP v (List.mem_cons_self v vs) frame t pos hfr htc1 hwf1
      by_cases hd : v.isDynamic = true
      · rw [show encHeads (v :: vs) off
            = byteWord off ++ encHeads vs (off + (encToken v).length) from by
              simp [encHeads, hd]] at hH
        rw [show encTails (v :: vs) = encToken v ++ encTails vs from by
          simp [encTails, hd]] at hT
        obtain ⟨hW, hH2⟩ := containsAt_split hH
        obtain ⟨hTv, hT2⟩ := containsAt_split hT
        rw [length_byteWord] at hH2
        have htok : decToken frame t pos = some v := hPv.2 hd off hW hTv
        have hps : paramHeadSize t = 32 := by
          have h3 := headSize_eq v t htc1
          rw [headSize_of_dynamic hd] at h3
          exact h3.symm
        have hrec := ih (fun w hw => hP w (List.mem_cons_of_mem _ hw)) frame ts
          (pos + 32) (off + (encToken v).length) hfr htc2 hwf2 hH2 hT2
        rw [decSeq, htok, hps, hrec]
      · have hd2 := isDynamic_false_of_not_true hd
        rw [show encHeads (v :: vs) off = encToken v ++ encHeads vs off from by
          simp [encHeads, hd2]] at hH
        rw [show encTails (v :: vs) = encTails vs from by
          simp [encTails, hd2]] at hT
        obtain ⟨hV, hH2⟩ := containsAt_split hH
        have htok : decToken frame t pos = some v := hPv.1 hd2 hV
        have hlen : (encToken v).length = paramHeadSize t := by
          rw [encToken_length_static v hwf1 hd2, headSize_eq v t htc1]
        rw [hlen] at hH2
        have hrec := ih (fun w hw => hP w (List.mem_cons_of_mem _ hw)) frame ts
          (pos + paramHeadSize t) off hfr htc2 hwf2 hH2 hT
        rw [decSeq, htok, hrec]

theorem decElems_of_members : ∀ (vs : List Token),
    (∀ v ∈ vs, DecodesOK v) →
    ∀ (frame : List Nat) (t : ParamType) (pos off : Nat),
    frame.length < 2 ^ 256 →
    typeCheckElems vs t = true → wfAll vs = true →
    containsAt frame (encHeads vs off) pos →
    containsAt frame (encTails vs) off →
    decElems frame t vs.length pos = some vs := by
  intro vs
  induction vs with
  | nil =>
    intro _ frame t pos off _ _ _ _ _
    rw [decElems.eq_def]
    rfl
  | cons v vs ih =>
    intro hP frame t pos off hfr htc hwf hH hT
    rw [typeCheckElems, Bool.and_eq_true] at htc
    rw [wfAll, Bool.and_eq_true] at hwf
    obtain ⟨htc1, htc2⟩ := htc
    obtain ⟨hwf1, hwf2⟩ := hwf
    have hPv := hP v (List.mem_cons_self v vs) frame t pos hfr htc1 hwf1
    by_cases hd : v.isDynamic = true
    · rw [show encHeads (v :: vs) off
          = byteWord off ++ encHeads vs (off + (encToken v).length) from by
            simp [encHeads, hd]] at hH
      rw [show encTails (v :: vs) = encToken v ++ encTails vs from by
        simp [encTails, hd]] at hT
      obtain ⟨hW, hH2⟩ := containsAt_split hH
      obtain ⟨hTv, hT2⟩ := containsAt_split hT
      rw [length_byteWord] at hH2
      have htok : decToken frame t pos = some v := hPv.2 hd off hW hTv
      have hps : paramHeadSize t = 32 := by
        have h3 := headSize_eq v t htc1
        rw [headSize_of_dynamic hd] at h3
        exact h3.symm
      have hrec := ih (fun w hw => hP w (List.mem_cons_of_mem _ hw)) frame t
        (pos + 32) (off + (encToken v).length) hfr htc2 hwf2 hH2 hT2
      rw [List.length_cons, decElems, htok, hps, hrec]
    · have hd2 := isDynamic_false_of_not_true hd
      rw [show encHeads (v :: vs) off = encToken v ++ encHeads vs off from by
        simp [encHeads, hd2]] at hH
      rw [show encTails (v :: vs) = encTails vs from by
        simp [encTails, hd2]] at hT
      obtain ⟨hV, hH2⟩ := containsAt_split hH
      have htok : decToken frame t pos = some v := hPv.1 hd2 hV
      have hlen : (encToken v).length = paramHeadSize t := by
        rw [encToken_length_static v hwf1 hd2, headSize_eq v t htc1]
      rw [hlen] at hH2
      have hrec := ih (fun w hw => hP w (List.mem_cons_of_mem _ hw)) frame t
        (pos + paramHeadSize t) off hfr htc2 hwf2 hH2 hT
      rw [List.length_cons, decElems, htok, hrec]

theorem decodesOK_aux : ∀ (k : Nat) (v : Token), sizeOf v ≤ k → DecodesOK v := by
  intro k
  induction k with
  | zero =>
    intro v hv
    exfalso
    cases v <;> simp at hv
  | succ k ih =>
    intro v hv frame t pos hfr htc hwf
    cases v with
    | uint n =>
      refine ⟨?_, by intro hdyn; simp [Token.isDynamic] at hdyn⟩
      intro _ hc
      rw [Token.wf, decide_eq_true_eq] at hwf
      rw [encToken] at hc
      cases t <;> simp only [typeCheck, Bool.false_eq_true] at htc
      rw [decToken, readWord_of_containsAt hwf hc, Option.map_some']
    | int n =>
      refine ⟨?_, by intro hdyn; simp [Token.isDynamic] at hdyn⟩
      intro _ hc
      rw [Token.wf, decide_eq_true_eq] at hwf
      rw [encToken] at hc
      cases t <;> simp only [typeCheck, Bool.false_eq_true] at htc
      rw [decToken, readWord_of_containsAt hwf hc, Option.map_some']
    | address a =>
      refine ⟨?_, by intro hdyn; simp [Token.isDynamic] at hdyn⟩
      intro _ hc
      rw [Token.wf, decide_eq_true_eq] at hwf
      rw [encToken] at hc
      cases t <;> simp only [typeCheck, Bool.false_eq_true] at htc
      rw [decToken, readWord_of_containsAt (lt_trans hwf (by norm_num)) hc,
        Option.map_some', Nat.mod_eq_of_lt hwf]
    | bool b =>
      refine ⟨?_, by intro hdyn; simp [Token.isDynamic] at hdyn⟩
      intro _ hc
      rw [encToken] at hc
      cases t <;> simp only [typeCheck, Bool.false_eq_true] at htc
      cases b
      · rw [decToken, readWord_of_containsAt (x := 0) (by norm_num) hc, Option.some_bind,
          if_pos (by norm_num)]
        rfl
      · rw [decToken, readWord_of_containsAt (x := 1) (by norm_num) hc, Option.some_bind,
          if_pos (by norm_num)]
        rfl
    | fixedBytes w =>
      refine ⟨?_, by intro hdyn; simp [Token.isDynamic] at hdyn⟩
      intro _ hc
      rw [Token.wf, decide_eq_true_eq] at hwf
      rw [encToken] at hc
      cases t <;> simp only [typeCheck, Bool.false_eq_true] at htc
      case fixedBytes n =>
        have hn : w.length = n := by simpa using htc
        obtain ⟨hcw, _⟩ := containsAt_split hc
        obtain ⟨hb1, hb2⟩ := hcw
        rw [decToken, if_pos (by omega), ← hn, hb2]
    | bytes w =>
      refine ⟨by intro hst; simp [Token.isDynamic] at hst, ?_⟩
      intro _ off hoff hc
      rw [encToken] at hc
      cases t <;> simp only [typeCheck, Bool.false_eq_true] at htc
      have hofflt : off < 2 ^ 256 := by
        have h3 := hc.1
        omega
      rw [show byteWord w.length ++ w ++ List.replicate (padLen w.length) 0
          = byteWord w.length ++ (w ++ List.replicate (padLen w.length) 0) from by
            rw [List.append_assoc]] at hc
      obtain ⟨hcL, hcR⟩ := containsAt_split hc
      rw [length_byteWord] at hcR
      obtain ⟨hcw, _⟩ := containsAt_split hcR
      have hwlt : w.length < 2 ^ 256 := by
        have h3 := hcw.1
        omega
      rw [decToken, readWord_of_containsAt hofflt hoff, Option.some_bind,
        readWord_of_containsAt hwlt hcL, Option.some_bind, if_pos hcw.1, hcw.2]
    | string w =>
      refine ⟨by intro hst; simp [Token.isDynamic] at hst, ?_⟩
      intro _ off hoff hc
      rw [encToken] at hc
      cases t <;> simp only [typeCheck, Bool.false_eq_true] at htc
      have hofflt : off < 2 ^ 256 := by
        have h3 := hc.1
        omega
      rw [show byteWord w.length ++ w ++ List.replicate (padLen w.length) 0
          = byteWord w.length ++ (w ++ List.replicate (padLen w.length) 0) from by
            rw [List.append_assoc]] at hc
      obtain ⟨hcL, hcR⟩ := containsAt_split hc
      rw [length_byteWord] at hcR
      obtain ⟨hcw, _⟩ := containsAt_split hcR
      have hwlt : w.length < 2 ^ 256 := by
        have h3 := hcw.1
        omega
      rw [decToken, readWord_of_containsAt hofflt hoff, Option.some_bind,
        readWord_of_containsAt hwlt hcL, Option.some_bind, if_pos hcw.1, hcw.2]
    | array elems =>
      have hmemP : ∀ w ∈ elems, DecodesOK w := by
        intro w hw
        refine ih w ?_
        have h1 := List.sizeOf_lt_of_mem hw
        have h2 : sizeOf (Token.array elems) = 1 + sizeOf elems := by simp
        omega
      refine ⟨by intro hst; simp [Token.isDynamic] at hst, ?_⟩
      intro _ off hoff hc
      rw [Token.wf, Bool.and_eq_true, decide_eq_true_eq] at hwf
      obtain ⟨hN, hwfAll⟩ := hwf
      rw [encToken] at hc
      cases t <;> simp only [typeCheck, Bool.false_eq_true] at htc
      case array t2 =>
        have hofflt : off < 2 ^ 256 := by
          have h3 := hc.1
          omega
        rw [show byteWord elems.length ++ encHeads elems (headsTotal elems)
              ++ encTails elems
            = byteWord elems.length ++ (encHeads elems (headsTotal elems)
              ++ encTails elems) from by rw [List.append_assoc]] at hc
        obtain ⟨hcN, hcHT⟩ := containsAt_split hc
        rw [length_byteWord] at hcHT
        obtain ⟨hcH, hcT⟩ := containsAt_split hcHT
        have hH2 : containsAt (frame.drop (off + 32))
            (encHeads elems (headsTotal elems)) 0 :=
          containsAt_drop (off + 32) 0 (by simpa using hcH)
        have hT2 : containsAt (frame.drop (off + 32)) (encTails elems)
            (headsTotal elems) := by
          have h4 := containsAt_drop (off + 32)
            ((encHeads elems (headsTotal elems)).length)
            (by simpa [Nat.add_assoc] using hcT)
          rwa [encHeads_length hwfAll] at h4
        have hdec := decElems_of_members elems hmemP (frame.drop (off + 32)) t2 0
          (headsTotal elems) (by rw [List.length_drop]; omega) htc hwfAll hH2 hT2
        rw [decToken, readWord_of_containsAt hofflt hoff, Option.some_bind,
          readWord_of_containsAt hN hcN, Option.some_bind, hdec, Option.map_some']
    | fixedArray elems =>
      have hmemP : ∀ w ∈ elems, DecodesOK w := by
        intro w hw
        refine ih w ?_
        have h1 := List.sizeOf_lt_of_mem hw
        have h2 : sizeOf (Token.fixedArray elems) = 1 + sizeOf elems := by simp
        omega
      have htc0 := htc
      rw [Token.wf] at hwf
      cases t <;> simp only [typeCheck, Bool.and_eq_true, Bool.false_eq_true] at htc
      case fixedArray t2 n =>
        obtain ⟨⟨hlen, _⟩, helems⟩ := htc
        have hdyneq : anyDynT elems = t2.isDynamic := by
          have h3 := isDynamic_of_typeCheck _ _ htc0
          simpa [Token.isDynamic, ParamType.isDynamic] using h3
        have hn : elems.length = n := by simpa using hlen
        refine ⟨?_, ?_⟩
        · intro hst hc
          simp only [Token.isDynamic] at hst
          have ht2 : t2.isDynamic = false := by rw [← hdyneq]; exact hst
          rw [encToken, encTails_nil_of_static hst, List.append_nil] at hc
          have hTnil : containsAt frame (encTails elems) (headsTotal elems) := by
            rw [encTails_nil_of_static hst]
            apply containsAt_nil
            have h4 := hc.1
            rw [encHeads_length hwf] at h4
            omega
          have hdec := decElems_of_members elems hmemP frame t2 pos
            (headsTotal elems) hfr helems hwf hc hTnil
          rw [hn] at hdec
          rw [decToken, ht2, if_neg (by simp), hdec, Option.map_some']
        · intro hdynT off hoff hc
          simp only [Token.isDynamic] at hdynT
          have ht2 : t2.isDynamic = true := by rw [← hdyneq]; exact hdynT
          rw [encToken] at hc
          have hofflt : off < 2 ^ 256 := by
            have h3 := hc.1
            omega
          obtain ⟨hcH, hcT⟩ := containsAt_split hc
          have hH2 : containsAt (frame.drop off)
              (encHeads elems (headsTotal elems)) 0 :=
            containsAt_drop off 0 (by simpa using hcH)
          have hT2 : containsAt (frame.drop off) (encTails elems)
              (headsTotal elems) := by
            have h4 := containsAt_drop off
              ((encHeads elems (headsTotal elems)).length) hcT
            rwa [encHeads_length hwf] at h4
          have hdec := decElems_of_members elems hmemP (frame.drop off) t2 0
            (headsTotal elems) (by rw [List.length_drop]; omega) helems hwf hH2 hT2
          rw [hn] at hdec
          rw [decToken, ht2, if_pos rfl, readWord_of_containsAt hofflt hoff,
            Option.some_bind, hdec, Option.map_some']
    | tuple elems =>
      have hmemP : ∀ w ∈ elems, DecodesOK w := by
        intro w hw
        refine ih w ?_
        have h1 := List.sizeOf_lt_of_mem hw
        have h2 : sizeOf (Token.tuple elems) = 1 + sizeOf elems := by simp
        omega
      have htc0 := htc
      rw [Token.wf] at hwf
      cases t <;> simp only [typeCheck, Bool.false_eq_true] at htc
      case tuple ts =>
        have hdyneq : anyDynT elems = anyDynP ts := by
          have h3 := isDynamic_of_typeCheck _ _ htc0
          simpa [Token.isDynamic, ParamType.isDynamic] using h3
        refine ⟨?_, ?_⟩
        · intro hst hc
          simp only [Token.isDynamic] at hst
          have hts : anyDynP ts = false := by rw [← hdyneq]; exact hst
          rw [encToken, encTails_nil_of_static hst, List.append_nil] at hc
          have hTnil : containsAt frame (encTails elems) (headsTotal elems) := by
            rw [encTails_nil_of_static hst]
            apply containsAt_nil
            have h4 := hc.1
            rw [encHeads_length hwf] at h4
            omega
          have hdec := decSeq_of_members elems hmemP frame ts pos
            (headsTotal elems) hfr htc hwf hc hTnil
          rw [decToken, hts, if_neg (by simp), hdec, Option.map_some']
        · intro hdynT off hoff hc
          simp only [Token.isDynamic] at hdynT
          have hts : anyDynP ts = true := by rw [← hdyneq]; exact hdynT
          rw [encToken] at hc
          have hofflt : off < 2 ^ 256 := by
            have h3 := hc.1
            omega
          obtain ⟨hcH, hcT⟩ := containsAt_split hc
          have hH2 : containsAt (frame.drop off)
              (encHeads elems (headsTotal elems)) 0 :=
            containsAt_drop off 0 (by simpa using hcH)
          have hT2 : containsAt (frame.drop off) (encTails elems)
              (headsTotal elems) := by
            have h4 := containsAt_drop off
              ((encHeads elems (headsTotal elems)).length) hcT
            rwa [encHeads_length hwf] at h4
          have hdec := decSeq_of_members elems hmemP (frame.drop off) ts 0
            (headsTotal elems) (by rw [List.length_drop]; omega) htc hwf hH2 hT2
          rw [decToken, hts, if_pos rfl, readWord_of_containsAt hofflt hoff,
            Option.some_bind, hdec, Option.map_some']

theorem decodesOK (v : Token) : DecodesOK v :=
  decodesOK_aux (sizeOf v) v le_rfl

/-- C4: encoding a well-typed argument list with a function descriptor
succeeds, and decoding output bytes produced by re-encoding well-formed
values as that function's return values yields the original values — over
the full supported token universe: integers of every width and signedness,
addresses, booleans, fixed and variable byte arrays, strings, fixed and
variable arrays and tuples, nested arbitrarily. -/
theorem claim4_abi_round_trip (f : Function) (vs ws : List Token)
    (hin : typeCheckList vs f.inputs = true)
    (hout : typeCheckList ws f.outputs = true)
    (hwf : wfAll ws = true)
    (hlen : (encodeTokens ws).length < 2 ^ 256) :
    encodeInput f vs = .ok (encodeTokens vs) ∧
    decodeOutput f (encodeTokens ws) = some ws := by
  constructor
  · rw [encodeInput, if_pos hin]
  · rw [decodeOutput, decodeTokens]
    have hHlen : (encHeads ws (headsTotal ws)).length = headsTotal ws :=
      encHeads_length hwf _
    refine decSeq_of_members ws (fun v _ => decodesOK v) (encodeTokens ws)
      f.outputs 0 (headsTotal ws) hlen hout hwf ⟨?_, ?_⟩ ⟨?_, ?_⟩
    · rw [encodeTokens, List.length_append]
      omega
    · rw [encodeTokens, List.drop_zero, List.take_left]
    · rw [encodeTokens, List.length_append]
      omega
    · rw [encodeTokens, drop_append_of_length hHlen, List.take_length]

set_option maxRecDepth 40000 in
theorem claim4_abi_round_trip_witness :
    encodeInput
        { name := "g", inputs := [.uint 8],
          outputs := [.uint 256, .int 8, .bool, .fixedBytes 3, .string,
                      .fixedArray (.uint 256) 2, .array .bytes,
                      .tuple [.uint 256, .string]] }
        [Token.uint 5]
      = .ok (encodeTokens [Token.uint 5]) ∧
    decodeOutput
        { name := "g", inputs := [.uint 8],
          outputs := [.uint 256, .int 8, .bool, .fixedBytes 3, .string,
                      .fixedArray (.uint 256) 2, .array .bytes,
                      .tuple [.uint 256, .string]] }
        (encodeTokens
          [Token.uint 1, Token.int 2, Token.bool true, Token.fixedBytes [1, 2, 3],
           Token.string [104, 105], Token.fixedArray [Token.uint 7, Token.uint 8],
           Token.array [Token.bytes [9], Token.bytes []],
           Token.tuple [Token.uint 4, Token.string [97]]])
      = some
          [Token.uint 1, Token.int 2, Token.bool true, Token.fixedBytes [1, 2, 3],
           Token.string [104, 105], Token.fixedArray [Token.uint 7, Token.uint 8],
           Token.array [Token.bytes [9], Token.bytes []],
           Token.tuple [Token.uint 4, Token.string [97]]] :=
  claim4_abi_round_trip
    { name := "g", inputs := [.uint 8],
      outputs := [.uint 256, .int 8, .bool, .fixedBytes 3, .string,
                  .fixedArray (.uint 256) 2, .array .bytes,
                  .tuple [.uint 256, .string]] }
    [Token.uint 5]
    [Token.uint 1, Token.int 2, Token.bool true, Token.fixedBytes [1, 2, 3],
     Token.string [104, 105], Token.fixedArray [Token.uint 7, Token.uint 8],
     Token.array [Token.bytes [9], Token.bytes []],
     Token.tuple [Token.uint 4, Token.string [97]]]
    (by decide) (by decide) (by decide) (by decide)

/-- C10 counterexample: an invocation that fails function resolution (here:
an empty interface) leaves the request-id counter unchanged at 0 instead of
advancing it by exactly one, so the claim as stated is false. -/
theorem claim10_frame_cex :
    (buildRequest 0 "mainnet" "0x" ⟨[]⟩ "foo" []).2 = 0 ∧
    (0 : Nat) ≠ (0 + 1) % 2 ^ 64 :=
  ⟨rfl, by decide⟩

/-- C10 (amended): the pipeline touches no state but the counter, and never
moves it by more than one step; an invocation that produces an outbound
request advances it by exactly one (wrapping), and that request carries
`max_response_bytes = 2048` and exactly the headers `Content-Type:
application/json` and `Host: <host of the resolved URL>`; an invocation
failing function resolution leaves the counter unchanged.  (The interface
`abi` is a pure value here; the code never mutates it.) -/
theorem claim10_frame (s : Nat) (network address : String) (abi : Contract)
    (methodName : String) (args : List Token) :
    ((buildRequest s network address abi methodName args).2 = s ∨
     (buildRequest s network address abi methodName args).2 = (s + 1) % 2 ^ 64) ∧
    (∀ req, (buildRequest s network address abi methodName args).1 = .ok req →
      (buildRequest s network address abi methodName args).2 = (s + 1) % 2 ^ 64 ∧
      req.max_response_bytes = some MAX_BYTES ∧ MAX_BYTES = 2048 ∧
      ∃ url host, determine_rpc_url network = .ok url ∧ hostOf url = some host ∧
        req.url = url ∧
        req.headers = [{ name := "Content-Type", value := "application/json" },
                       { name := "Host", value := host }]) ∧
    (∀ e, resolveFunction abi methodName = .error e →
      buildRequest s network address abi methodName args = (.error e, s)) := by
  rcases hres : resolveFunction abi methodName with e | f
  · refine ⟨Or.inl (by simp only [buildRequest, hres]), ?_, ?_⟩
    · intro req hreq
      simp only [buildRequest, hres] at hreq
      cases hreq
    · intro e2 he2
      cases he2
      simp only [buildRequest, hres]
  · rcases henc : encodeInput f args with e | data
    · refine ⟨Or.inl (by simp only [buildRequest, hres, henc]), ?_, fun e2 he2 => by cases he2⟩
      intro req hreq
      simp only [buildRequest, hres, henc] at hreq
      cases hreq
    · rcases hurl : determine_rpc_url network with e | url
      · refine ⟨Or.inr (by simp only [buildRequest, hres, henc, hurl]), ?_,
          fun e2 he2 => by cases he2⟩
        intro req hreq
        simp only [buildRequest, hres, henc, hurl] at hreq
        cases hreq
      · rcases hhost : hostOf url with _ | host
        · refine ⟨Or.inr (by simp only [buildRequest, hres, henc, hurl, hhost]), ?_,
            fun e2 he2 => by cases he2⟩
          intro req hreq
          simp only [buildRequest, hres, henc, hurl, hhost] at hreq
          cases hreq
        · refine ⟨Or.inr (by simp only [buildRequest, hres, henc, hurl, hhost]), ?_,
            fun e2 he2 => by cases he2⟩
          intro req hreq
          simp only [buildRequest, hres, henc, hurl, hhost] at hreq
          cases hreq
          exact ⟨by simp only [buildRequest, hres, henc, hurl, hhost], rfl, rfl,
            url, host, rfl, hhost, rfl, rfl⟩

theorem claim10_frame_witness :
    (buildRequest 0 "mainnet" "0xdead" balanceAbi "balanceOf" [Token.address 3]).2
      = (0 + 1) % 2 ^ 64 ∧
    (∃ url host, determine_rpc_url "mainnet" = .ok url ∧ hostOf url = some host) := by
  have h := (claim10_frame 0 "mainnet" "0xdead" balanceAbi "balanceOf"
    [Token.address 3]).2.1 _ rfl
  obtain ⟨h1, _, _, url, host, hu, hh, _⟩ := h
  exact ⟨h1, url, host, hu, hh⟩

/-- A canonical signature always contains an opening parenthesis. -/
theorem paren_mem_abiSignature (f : Function) : '(' ∈ (abiSignature f).data := by
  rw [abiSignature, strDataAppend, strDataAppend, strDataAppend]
  have h : '(' ∈ ("(" : String).data := by decide
  simp only [List.mem_append]
  tauto

/-- If no function name contains a parenthesis, a name filter keyed by a
canonical signature string matches nothing. -/
theorem filter_abiSignature_eq_nil (abi : Contract) (f : Function)
    (hnames : ∀ g ∈ abi.functions, '(' ∉ g.name.data) :
    abi.functions.filter (fun g => g.name == abiSignature f) = [] := by
  apply List.filter_eq_nil_iff.mpr
  intro g hg
  simp only [beq_iff_eq]
  intro hEq
  exact hnames g hg (hEq ▸ paren_mem_abiSignature f)

/-- C1: a name occurring exactly once resolves to its unique bearer; a name
borne by two or more overloads fails with `AmbiguousFunction` listing the
candidate signatures; querying with the canonical signature of any such
overload (function names containing no parenthesis, as Solidity identifiers
cannot) succeeds and returns a function whose signature equals the query. -/
theorem claim1_overload_lookup (abi : Contract) (q : String) (f : Function) :
    (abi.functions.filter (fun g => g.name == q) = [f] →
      resolveFunction abi q = .ok f) ∧
    (2 ≤ (abi.functions.filter (fun g => g.name == q)).length →
      resolveFunction abi q =
        .error (.AmbiguousFunction
          ((abi.functions.filter (fun g => g.name == q)).map abiSignature))) ∧
    (f ∈ abi.functions →
      2 ≤ (abi.functions.filter (fun g => g.name == f.name)).length →
      (∀ g ∈ abi.functions, '(' ∉ g.name.data) →
      ∃ g, resolveFunction abi (abiSignature f) = .ok g ∧
        abiSignature g = abiSignature f) := by
  refine ⟨?_, ?_, ?_⟩
  · intro h
    simp only [resolveFunction, h]
  · intro h2
    rcases hl : abi.functions.filter (fun g => g.name == q) with _ | ⟨a, _ | ⟨b, rest⟩⟩
    · rw [hl] at h2; simp at h2
    · rw [hl] at h2; simp at h2
    · simp only [resolveFunction, hl]
  · intro hmem _hov hnames
    have hnil := filter_abiSignature_eq_nil abi f hnames
    have hfind : (abi.functions.find? (fun g => abiSignature f == abiSignature g)).isSome :=
      List.find?_isSome.mpr ⟨f, hmem, by simp⟩
    obtain ⟨g, hg⟩ := Option.isSome_iff_exists.mp hfind
    have hPg : abiSignature g = abiSignature f := by
      have h3 := List.find?_some hg
      have h4 : (abiSignature f == abiSignature g) = true := h3
      exact (eq_of_beq h4).symm
    refine ⟨g, ?_, hPg⟩
    simp only [resolveFunction, hnil, hg]

theorem claim1_overload_lookup_witness :
    resolveFunction balanceAbi "balanceOf"
      = .ok { name := "balanceOf", inputs := [.address], outputs := [.uint 256] } ∧
    resolveFunction transferAbi "transfer"
      = .error (.AmbiguousFunction ["transfer(address,uint256)", "transfer(address)"]) ∧
    ∃ g, resolveFunction transferAbi
        (abiSignature { name := "transfer", inputs := [.address, .uint 256], outputs := [.bool] })
        = .ok g ∧
      abiSignature g
        = abiSignature { name := "transfer", inputs := [.address, .uint 256], outputs := [.bool] } := by
  refine ⟨?_, ?_, ?_⟩
  · exact (claim1_overload_lookup balanceAbi "balanceOf"
      { name := "balanceOf", inputs := [.address], outputs := [.uint 256] }).1 rfl
  · have h := (claim1_overload_lookup transferAbi "transfer"
      { name := "transfer", inputs := [.address, .uint 256], outputs := [.bool] }).2.1
      (by decide)
    rw [h]; rfl
  · exact (claim1_overload_lookup transferAbi "transfer"
      { name := "transfer", inputs := [.address, .uint 256], outputs := [.bool] }).2.2
      (by exact List.mem_cons_self _ _) (by decide) (by decide)

/-- C8: when the name lookup matches nothing and no function's canonical
signature equals the query, resolution fails with `FunctionNotFound` — no
default function is picked. -/
theorem claim8_function_not_found (abi : Contract) (q : String)
    (h0 : abi.functions.filter (fun g => g.name == q) = [])
    (hsig : ∀ g ∈ abi.functions, abiSignature g ≠ q) :
    resolveFunction abi q = .error .FunctionNotFound := by
  have hfind : abi.functions.find? (fun g => q == abiSignature g) = none := by
    apply List.find?_eq_none.mpr
    intro g hg
    simp only [beq_iff_eq]
    exact fun h => hsig g hg h.symm
  simp only [resolveFunction, h0, hfind]

theorem claim8_function_not_found_witness :
    resolveFunction balanceAbi "transfer" = .error .FunctionNotFound :=
  claim8_function_not_found balanceAbi "transfer" rfl (by decide)

theorem claim9_outcome_handling_witness :
    handleRpcResponse (fun bs => .ok [Token.bytes bs]) ⟨none, none⟩
      = .error .MissingOutcome ∧
    handleRpcResponse (fun bs => .ok [Token.bytes bs]) ⟨some "0x00ff", none⟩
      = (fun bs => (.ok [Token.bytes bs] : Except CallError (List Token))) [0, 255] :=
  ⟨(claim9_outcome_handling (fun bs => .ok [Token.bytes bs]) ⟨none, none⟩ "" []).1 rfl rfl,
   (claim9_outcome_handling (fun bs => .ok [Token.bytes bs]) ⟨some "0x00ff", none⟩
      "0x00ff" [0, 255]).2 rfl rfl rfl⟩

end EthRpc
